import Mathlib

/-!
Verification of the concurrent range-addressed transfer engine of the
`storage` repository (Go).  The definitions below are shallow embeddings of
the Go source in `internal/service` (file service: `DownloadFileParallel`,
`uploadFileParallel`, `GetFileDataRange`, `UploadFile`) and
`internal/handler/file_handler.go` (`parseRange`).  Go `int64` values are
modelled as `Int` (the sizes involved are far below 2^63, so wrap-around
never occurs on the executions considered); Go truncated integer division
is `Int.tdiv`.
-/

/-! ## Constants (source: service file, `const` blocks) -/

/-- `maxFileSize = 100 * 1024 * 1024` — 100MB upload size cap. -/

def maxFileSize : Int := 100 * 1024 * 1024

/-- `chunkSize = 10 * 1024 * 1024` — chunk size used by `uploadFileParallel`. -/

def chunkSize : Int := 10 * 1024 * 1024

/-- `maxConcurrentUploads = 5` — worker bound of `uploadFileParallel`. -/

def maxConcurrentUploads : Nat := 5

/-- `defaultChunkSize = 5 * 1024 * 1024` — chunk size of `DownloadFileParallel`. -/

def defaultChunkSize : Int := 5 * 1024 * 1024

/-- `maxWorkers = 5` — worker count of `DownloadFileParallel`. -/

def maxWorkers : Nat := 5

/-- `maxRetries = 3` — retry bound of the download chunk fetch loop. -/

def maxRetries : Nat := 3

/-! ## Chunk planner

`DownloadFileParallel` computes
`numChunks := (totalSize + defaultChunkSize - 1) / defaultChunkSize` and, for
`i` from `0` while `i < numChunks`, the descriptor
`start := i*defaultChunkSize`, `end := start + defaultChunkSize`,
`if end > totalSize { end = totalSize }`, sending `{Start: start, End: end-1}`.
`uploadFileParallel` computes the same boundaries:
`chunks := (totalSize + chunkSize - 1) / chunkSize`,
`offset := chunkNum * chunkSize`,
`size := if offset+chunkSize > totalSize then totalSize-offset else chunkSize`.
We embed the boundary computation parametrised by the chunk size. -/

/-- A chunk descriptor: `ChunkInfo{Start, End}` of the Go source
(`End` is the inclusive end offset, here `endInc`). -/

structure ChunkInfo where
  start : Int
  endInc : Int
  deriving Repr, DecidableEq

/-- Length of a chunk descriptor's byte range (`end - start + 1`). -/

def chunkLen (ci : ChunkInfo) : Int := ci.endInc - ci.start + 1

/-- `numChunks := (totalSize + chunkSize - 1) / chunkSize` with Go's
truncated `int64` division. -/

def numChunksOf (totalSize c : Int) : Int := (totalSize + c - 1).tdiv c

/-- The chunk-boundary loop of `DownloadFileParallel`
(and identically of `uploadFileParallel`): for `i < numChunks`,
`start := i*c`; `end := start + c; if end > totalSize { end = totalSize }`;
descriptor `{Start: start, End: end - 1}`. -/

def planChunks (totalSize c : Int) : List ChunkInfo :=
  (List.range (numChunksOf totalSize c).toNat).map fun (i : Nat) =>
    let start : Int := (i : Int) * c
    let e : Int := min (start + c) totalSize
    ⟨start, e - 1⟩

/-- The chunk size computed inside `uploadFileParallel`'s worker:
`offset := chunkNum*chunkSize`;
`if offset+chunkSize > totalSize { size = totalSize-offset } else { size = chunkSize }`. -/

def uploadChunkSize (totalSize c : Int) (chunkNum : Nat) : Int :=
  if (chunkNum : Int) * c + c > totalSize then totalSize - (chunkNum : Int) * c
  else c

/-! ## Byte-range streaming: `parseRange` and `GetFileDataRange`

`parseRange` (handler) splits the `Range` header into items; each item is one
of the forms `-N` (suffix), `N-` (open end) or `N-M`.  The numeric parts are
`strconv.ParseInt` results of strings containing no `-` sign.  For each item
the handler computes a `(start, end)` pair and rejects it when
`start < 0 || end < 0 || start > end || end >= fileSize`.  On success the
handler passes `(start, end)` to `GetFileDataRange`, which clamps
`start < 0` to `0` and `end >= SizeBytes` to `SizeBytes-1`, errors when
`start > end`, and only then performs the object-store range fetch. -/

/-- One item of a `Range` header after `parseRange`'s string splitting. -/

inductive RangeForm where
  | suffix (n : Int)
  | openEnd (a : Int)
  | closed (a b : Int)
  deriving Repr, DecidableEq

/-- The `(start, end)` pair `parseRange` computes for one item:
`-N` gives `(fileSize-N, fileSize-1)`, `N-` gives `(N, fileSize-1)`,
`N-M` gives `(N, M)`. -/

def computeRange (f : RangeForm) (fileSize : Int) : Int × Int :=
  match f with
  | .suffix n => (fileSize - n, fileSize - 1)
  | .openEnd a => (a, fileSize - 1)
  | .closed a b => (a, b)

/-- `parseRange`'s validation:
`if start < 0 || end < 0 || start > end || end >= fileSize { error }`. -/

def rangeOk (s e fileSize : Int) : Bool :=
  !(s < 0 || e < 0 || s > e || e ≥ fileSize)

/-- One `parseRange` item: computed pair on success, `none` on the
invalid-range error. -/

def parseRangeItem (f : RangeForm) (fileSize : Int) : Option (Int × Int) :=
  let se := computeRange f fileSize
  if rangeOk se.1 se.2 fileSize then some se else none

/-- The range logic of `GetFileDataRange` (service): clamp `start < 0` to 0
and `end ≥ SizeBytes` to `SizeBytes - 1`, fail on `start > end`, then fetch
the byte range from the object store (`fetch` abstracts
`s3Client.GetObjectRange`; fetching happens only after validation). -/

def getFileDataRange (fetch : Int → Int → Option (List Nat))
    (sizeBytes s e : Int) : Except String (List Nat) :=
  let s2 := if s < 0 then 0 else s
  let e2 := if e ≥ sizeBytes then sizeBytes - 1 else e
  if s2 > e2 then Except.error "invalid range"
  else
    match fetch s2 e2 with
    | some bs => Except.ok bs
    | none => Except.error "s3 error"

/-- The handler composition: `parseRange` item then `GetFileDataRange`;
a parse failure answers 416 without calling the service. -/

def rangeStream (fetch : Int → Int → Option (List Nat)) (fileSize : Int)
    (f : RangeForm) : Except String (List Nat) :=
  match parseRangeItem f fileSize with
  | none => Except.error "invalid range"
  | some se => getFileDataRange fetch fileSize se.1 se.2

/-- Success test for the embedded results. -/

def isOkE (r : Except String (List Nat)) : Bool :=
  match r with
  | .ok _ => true
  | .error _ => false

/-! ## `UploadFile` size gate

`UploadFile` first checks the quota (`CheckSpaceAvailable`), then the
presence of the required parameters, then
`if header.Size > maxFileSize { return errFileTooLarge }`.  Only after all
three gates pass does the function proceed towards the folder lookup,
database writes and the object-store upload. -/

/-- Outcome of `UploadFile`'s validation prefix.  `proceed` means control
reaches the rest of the function (the first database/object-store side
effects); each `err…` constructor is an early `return` before any
object-store write. -/

inductive UploadGate where
  | errNotEnoughSpace
  | errInvalidFile
  | errFileTooLarge
  | proceed
  deriving Repr, DecidableEq

/-- The validation prefix of `UploadFile` in source order: quota check,
parameter check, size check. -/

def uploadFileGate (spaceAvailable validParams : Bool) (size : Int) : UploadGate :=
  if !spaceAvailable then .errNotEnoughSpace
  else if !validParams then .errInvalidFile
  else if size > maxFileSize then .errFileTooLarge
  else .proceed

/-! ## Worker retry loop (download) and the upload worker body

`DownloadFileParallel`'s worker wraps each chunk in
`for retry := 0; retry < maxRetries; retry++ { data, err = GetFileDataRange(...);
if err == nil { break }; time.Sleep(time.Second * time.Duration(retry+1)) }`,
surfacing `err` only after the loop.  (The 30s timeout context is created
once per chunk, outside this loop, not per attempt.)
`uploadFileParallel`'s worker performs a single `ReadAt` and a single
`UploadBytes` with no retry, no timeout and no backoff.
`outcome k` abstracts the error result of the k-th fetch/store call for the
chunk (`none` = success). -/

/-- The download retry loop; `fuel = maxRetries - retry` makes the loop bound
structural.  Returns the final `err` and the list of sleep durations
(seconds) performed. -/

def fetchRetryAux (outcome : Nat → Option String) :
    Nat → Nat → Option String → List Nat → Option String × List Nat
  | 0, _, err, sleeps => (err, sleeps)
  | fuel + 1, retry, _, sleeps =>
    match outcome retry with
    | none => (none, sleeps)
    | some e => fetchRetryAux outcome fuel (retry + 1) (some e) (sleeps ++ [retry + 1])

/-- One chunk's fetch with retries, as the download worker performs it. -/

def downloadChunkFetch (outcome : Nat → Option String) : Option String × List Nat :=
  fetchRetryAux outcome maxRetries 0 none []

/-- The body of `uploadFileParallel`'s worker for one chunk: one `ReadAt`
(`readErr`), then exactly one `UploadBytes` call — call number 0 of the
store outcomes; no retry exists, so later outcomes are never consulted. -/

def uploadChunkSend (readErr : Option String) (s3 : Nat → Option String) :
    Option String :=
  match readErr with
  | some e => some e
  | none => s3 0

/-! ## The download worker pool

Each of the `maxWorkers` goroutines runs `for chunk := range chunks`: it takes
queued chunks until the channel is empty, and on a chunk whose fetch fails
(after retries) it sends one error result and `return`s, abandoning the rest
of the queue to the other workers.  `workerRun` is one worker's pass over
the shared queue; `poolRun` serialises the pool, running the workers one
after another on what the previous workers left — one valid interleaving of
the Go channel semantics.  `outcome i` is the retry-exhausted fetch outcome
for chunk `i`; a result is the pair of the chunk taken and the error sent
with it (the Go error result `ChunkInfo{Error: err}` carries no index; the
index here records which descriptor produced the result). -/

/-- One worker's pass over the queue. -/

def workerRun (outcome : Nat → Option String) :
    List Nat → List (Nat × Option String) × List Nat
  | [] => ([], [])
  | i :: rest =>
    match outcome i with
    | some e => ([(i, some e)], rest)
    | none =>
      let r := workerRun outcome rest
      ((i, none) :: r.1, r.2)

/-- A serialised execution of the pool of `w` workers. -/

def poolRun (outcome : Nat → Option String) :
    List Nat → Nat → List (Nat × Option String)
  | _, 0 => []
  | queue, w + 1 =>
    let r := workerRun outcome queue
    r.1 ++ poolRun outcome r.2 w

/-! ## `uploadFileParallel` as a whole

The coordinator dispatches every chunk, waits (`wg.Wait`), closes the
buffered `errors` channel and returns the first error found in it (or nil).
The function body contains no delete call: failed uploads leave
already-written chunk objects in the store.  `StoreOp` records the
object-store operations performed. -/

/-- An object-store operation performed during an upload. -/

inductive StoreOp where
  | put (chunkNum : Nat)
  | delete (chunkNum : Nat)
  deriving Repr, DecidableEq

/-- Delete test. -/

def isDeleteOp (op : StoreOp) : Bool :=
  match op with
  | .delete _ => true
  | .put _ => false

/-- One chunk of `uploadFileParallel` (serialised): `ReadAt` (`readRes i`),
then `UploadBytes` (`uploadRes i`); the first error aborts the chunk; a
successful `UploadBytes` writes the chunk object. -/

def uploadChunkStep (readRes uploadRes : Nat → Option String) (i : Nat) :
    Option String × List StoreOp :=
  match readRes i with
  | some e => (some e, [])
  | none =>
    match uploadRes i with
    | some e => (some e, [])
    | none => (none, [StoreOp.put i])

/-- Serialised `uploadFileParallel`: run every chunk, return the first error
from the errors channel (chunk order in this serialisation) together with
the trace of store operations performed. -/

def uploadFileParallelRun (readRes uploadRes : Nat → Option String) (n : Nat) :
    Option String × List StoreOp :=
  let results := (List.range n).map (uploadChunkStep readRes uploadRes)
  (((results.map Prod.fst).filterMap id).head?, (results.map Prod.snd).flatten)

/-! ## The ordered reassembly loop of `DownloadFileParallel`

The writer goroutine keeps `assembledData map[int64][]byte` and
`currentOffset int64 = 0`.  For each result received: on error, send the
error into the `errors` channel and return (the deferred `pw.Close()` then
closes the pipe cleanly); otherwise store
`assembledData[result.Start] = result.Data` and then, in a loop, while
`assembledData` contains an entry at `currentOffset`, write it to the pipe,
`delete` it and advance `currentOffset` by its length.  Offsets fit `Nat`:
they are nonnegative `int64` values produced by the planner. -/

/-- `assembledData[key]` — Go map lookup; the map is an association list. -/

def findChunk : List (Nat × List Nat) → Nat → Option (List Nat)
  | [], _ => none
  | (k, d) :: rest, key => if k = key then some d else findChunk rest key

/-- `delete(assembledData, key)` — removes the entry with that key (a Go map
holds at most one). -/

def removeChunk : List (Nat × List Nat) → Nat → List (Nat × List Nat)
  | [], _ => []
  | (k, d) :: rest, key => if k = key then rest else (k, d) :: removeChunk rest key

/-- `assembledData[key] = v` — map insert/overwrite. -/

def mapSet (m : List (Nat × List Nat)) (k : Nat) (v : List Nat) :
    List (Nat × List Nat) :=
  removeChunk m k ++ [(k, v)]

/-- The writer goroutine's reassembly state: the buffered out-of-order chunks
(`assembledData`), the cursor (`currentOffset`) and the bytes written to the
pipe so far. -/

structure SinkState where
  buf : List (Nat × List Nat)
  cur : Nat
  out : List Nat
  deriving Repr, DecidableEq

/-- The inner emission loop.  Each iteration deletes one map entry, so
`buf.length` steps of fuel make the loop bound structural; the loop itself
stops as soon as `assembledData` has no entry at the cursor. -/

def drainLoop : Nat → List (Nat × List Nat) → Nat → List Nat → SinkState
  | 0, buf, cur, out => ⟨buf, cur, out⟩
  | fuel + 1, buf, cur, out =>
    match findChunk buf cur with
    | some d => drainLoop fuel (removeChunk buf cur) (cur + d.length) (out ++ d)
    | none => ⟨buf, cur, out⟩

/-- Processing one successful chunk result: store the payload under its start
offset, then drain everything now contiguous. -/

def acceptChunk (st : SinkState) (r : Nat × List Nat) : SinkState :=
  let buf2 := mapSet st.buf r.1 r.2
  drainLoop buf2.length buf2 st.cur st.out

/-- The initial writer state: empty buffer, `currentOffset = 0`, nothing
written. -/

def initSink : SinkState := ⟨[], 0, []⟩

/-- The reassembly of a run: fold the successful results in arrival order. -/

def runSink (rs : List (Nat × List Nat)) : SinkState :=
  rs.foldl acceptChunk initSink

/-- The payload `GetFileDataRange` returns for the inclusive range `[s, e]`:
the file bytes at offsets `s..e`. -/

def chunkPayload (content : List Nat) (s e : Nat) : List Nat :=
  (content.drop s).take (e + 1 - s)

/-- The successful chunk results of a download of `content`: the planned
descriptors paired with their byte payloads. -/

def downloadResults (content : List Nat) (c : Int) : List (Nat × List Nat) :=
  (planChunks (content.length : Int) c).map fun ci =>
    (ci.start.toNat, chunkPayload content ci.start.toNat ci.endInc.toNat)

/-! ## The writer goroutine's error path (C3)

On a result carrying an error the writer does `errors <- result.Error;
return`.  `DownloadFileParallel` never reads the `errors` channel and never
calls `CloseWithError`: the only close of the pipe's write end is the
deferred `pw.Close()`, which ends the reader's stream with a clean EOF. -/

/-- A value received from the `results` channel — `ChunkInfo{Start, Data,
Error}` (a failed chunk carries only its error; `Start` and `Data` keep
their zero values). -/

structure ChunkResult where
  start : Nat
  data : List Nat
  error : Option String
  deriving Repr, DecidableEq

/-- The writer goroutine's result loop: an error result sends the error into
the `errors` channel and returns; a successful result is stored and drained
into the pipe.  Returns the final sink state and the value sent to `errors`
(if any). -/

def writerLoop : List ChunkResult → SinkState → SinkState × Option String
  | [], st => (st, none)
  | r :: rest, st =>
    match r.error with
    | some e => (st, some e)
    | none => writerLoop rest (acceptChunk st (r.start, r.data))

/-- The error the pipe is closed with as the reader observes it:
the writer's only close is the deferred `pw.Close()` — `CloseWithError` is
never called in `DownloadFileParallel`, so the reader always sees a clean
EOF. -/

def pipeCloseError : Option String := none

/-- What the reader of the returned pipe observes for a given sequence of
channel results: the emitted bytes and the close error (`none` = clean
EOF). -/

def downloadReaderView (results : List ChunkResult) : List Nat × Option String :=
  ((writerLoop results initSink).1.out, pipeCloseError)

/-! ## Reassembly correctness (C2): proof scaffolding

`chunkAtN content c2 i` is chunk `i` of a download of `content` with chunk
size `c2`, in ℕ form: its start offset and its payload bytes;
`sinkChunks` is the full list of successful results, shown below to equal
`downloadResults`. -/

/-- Chunk `i` of the download of `content` (ℕ form): start offset `i*c2`,
payload = the file bytes from there, at most `c2` of them. -/

def chunkAtN (content : List Nat) (c2 i : Nat) : Nat × List Nat :=
  (i * c2, (content.drop (i * c2)).take c2)

/-- All chunks of the download of `content`, in plan order. -/

def sinkChunks (content : List Nat) (c2 M : Nat) : List (Nat × List Nat) :=
  (List.range M).map (chunkAtN content c2)

/-- The writer-loop invariant: after the arrivals `p` have been processed,
the emitted bytes are exactly the file's first `cur` bytes, the cursor sits
on a chunk boundary, the buffer holds exactly the arrived chunks at or past
the cursor, the buffer has no entry at the cursor (the drain loop ran to
quiescence), and every chunk strictly before the cursor has arrived. -/

def SinkInv (content : List Nat) (c2 M : Nat) (p : List (Nat × List Nat))
    (st : SinkState) : Prop :=
  (st.buf.map Prod.fst).Nodup
  ∧ st.out = content.take st.cur
  ∧ (∃ k, k ≤ M ∧ st.cur = min (k * c2) content.length)
  ∧ (∀ x, x ∈ st.buf ↔ (x ∈ p ∧ st.cur ≤ x.1))
  ∧ findChunk st.buf st.cur = none
  ∧ (∀ j, j < M → j * c2 < st.cur → chunkAtN content c2 j ∈ p)

/-! ### Planner arithmetic -/

lemma numChunksOf_eq_ediv {t c : Int} (ht : 0 ≤ t) (hc : 1 ≤ c) :
    numChunksOf t c = (t + c - 1) / c := by
  unfold numChunksOf
  exact Int.tdiv_eq_ediv (by omega) (by omega)

lemma numChunksOf_nonneg {t c : Int} (ht : 0 ≤ t) (hc : 1 ≤ c) :
    0 ≤ numChunksOf t c := by
  rw [numChunksOf_eq_ediv ht hc]
  exact Int.ediv_nonneg (by omega) (by omega)

lemma le_numChunksOf_mul {t c : Int} (ht : 0 ≤ t) (hc : 1 ≤ c) :
    t ≤ numChunksOf t c * c := by
  rw [numChunksOf_eq_ediv ht hc]
  have hqr := Int.ediv_add_emod (t + c - 1) c
  have hr0 : 0 ≤ (t + c - 1) % c := Int.emod_nonneg _ (by omega)
  have hrc : (t + c - 1) % c < c := Int.emod_lt_of_pos _ (by omega)
  have hcomm : (t + c - 1) / c * c = c * ((t + c - 1) / c) := by ring
  rw [hcomm]
  linarith

lemma numChunksOf_pred_mul_lt {t c : Int} (ht : 0 < t) (hc : 1 ≤ c) :
    (numChunksOf t c - 1) * c < t := by
  rw [numChunksOf_eq_ediv (by omega) hc]
  have hqr := Int.ediv_add_emod (t + c - 1) c
  have hr0 : 0 ≤ (t + c - 1) % c := Int.emod_nonneg _ (by omega)
  have hrc : (t + c - 1) % c < c := Int.emod_lt_of_pos _ (by omega)
  have hcomm : ((t + c - 1) / c - 1) * c = c * ((t + c - 1) / c) - c := by ring
  rw [hcomm]
  linarith

lemma numChunksOf_eq_zero {c : Int} (hc : 1 ≤ c) : numChunksOf 0 c = 0 := by
  rw [numChunksOf_eq_ediv (le_refl 0) hc]
  exact Int.ediv_eq_zero_of_lt (by omega) (by omega)

lemma numChunksOf_pos {t c : Int} (ht : 0 < t) (hc : 1 ≤ c) :
    0 < numChunksOf t c := by
  by_contra h
  push_neg at h
  have h2 := le_numChunksOf_mul (le_of_lt ht) hc
  have h3 : numChunksOf t c * c ≤ 0 :=
    mul_nonpos_iff.mpr (Or.inr ⟨h, by omega⟩)
  linarith

lemma numChunksOf_nonpos {t c : Int} (ht : t ≤ 0) (hc : 1 ≤ c) :
    numChunksOf t c ≤ 0 := by
  unfold numChunksOf
  rcases le_or_lt 0 (t + c - 1) with hn | hn
  · rw [Int.tdiv_eq_ediv hn (by omega)]
    have : (t + c - 1) / c < 1 := by
      rw [Int.ediv_lt_iff_lt_mul (by omega)]
      omega
    omega
  · have hneg : -(t + c - 1) ≥ 0 := by omega
    have h1 : (t + c - 1).tdiv c = -((-(t + c - 1)).tdiv c) := by
      rw [Int.neg_tdiv]
      omega
    have h2 : 0 ≤ (-(t + c - 1)).tdiv c := by
      rw [Int.tdiv_eq_ediv hneg (by omega)]
      exact Int.ediv_nonneg hneg (by omega)
    omega

lemma planChunks_length (t c : Int) :
    (planChunks t c).length = (numChunksOf t c).toNat := by
  unfold planChunks
  rw [List.length_map, List.length_range]

lemma planChunks_get (t c : Int) (i : Nat) (h : i < (planChunks t c).length) :
    (planChunks t c).get ⟨i, h⟩ =
      ⟨(i : Int) * c, min ((i : Int) * c + c) t - 1⟩ := by
  rw [List.get_eq_getElem]
  unfold planChunks
  simp only [List.getElem_map, List.getElem_range]

lemma index_mul_lt {t c : Int} (ht : 0 ≤ t) (hc : 1 ≤ c) {i : Nat}
    (hi : i < (numChunksOf t c).toNat) : (i : Int) * c < t := by
  have hN : 0 ≤ numChunksOf t c := numChunksOf_nonneg ht hc
  have hiN : (i : Int) < numChunksOf t c := by omega
  have ht0 : 0 < t := by
    by_contra hcon
    push_neg at hcon
    have heq : t = 0 := le_antisymm hcon ht
    rw [heq, numChunksOf_eq_zero hc] at hiN
    omega
  have h1 : (i : Int) ≤ numChunksOf t c - 1 := by omega
  have h2 : (i : Int) * c ≤ (numChunksOf t c - 1) * c :=
    mul_le_mul_of_nonneg_right h1 (by omega)
  have h3 := numChunksOf_pred_mul_lt ht0 hc
  linarith

/-- C9 counterexample input: the planner applied to a negative total size
produces a (empty) plan; there is no error return anywhere in the
chunk-boundary computation. -/

theorem planChunks_neg_counterexample :
    planChunks (-1) defaultChunkSize = [] := by
  decide

/-- C9 (amended): the chunk-boundary computation is a total pure function with
no failure modes at all: any `totalSize ≤ 0` (negative sizes included)
silently yields the empty plan, and any `totalSize > 0` yields a non-empty
plan; no `InvalidArgument` error exists on this path. -/

theorem planChunks_total (t c : Int) (hc : 1 ≤ c) :
    (t ≤ 0 → planChunks t c = []) ∧ (0 < t → planChunks t c ≠ []) := by
  constructor
  · intro ht
    have h := numChunksOf_nonpos ht hc
    unfold planChunks
    have h2 : (numChunksOf t c).toNat = 0 := by omega
    rw [h2]
    simp
  · intro ht
    have h := numChunksOf_pos ht hc
    have h2 : (planChunks t c).length ≠ 0 := by
      rw [planChunks_length]
      omega
    intro hcon
    exact h2 (by rw [hcon]; rfl)

/-- Witness for `planChunks_total` at `t = 7`, `c = 3`. -/

theorem planChunks_total_witness :
    (1 : Int) ≤ 3 ∧ ((7 : Int) ≤ 0 → planChunks 7 3 = []) ∧
      ((0 : Int) < 7 → planChunks 7 3 ≠ []) :=
  ⟨by decide, (planChunks_total 7 3 (by decide)).1,
    (planChunks_total 7 3 (by decide)).2⟩

/-- C6: the number of planned chunks is `⌈totalSize / chunkSize⌉`; the final
chunk has size `totalSize - (numChunks-1)*chunkSize`, which is at most
`chunkSize` and at least 1 whenever the plan is non-empty; `totalSize = 0`
gives the empty plan, `totalSize = chunkSize` exactly one chunk, and
`totalSize = chunkSize + 1` two chunks with the second of size 1. -/

theorem plan_count_and_sizes (t c : Int) (ht : 0 ≤ t) (hc : 1 ≤ c) :
    ((planChunks t c).length : Int) = ⌈(t : ℚ) / (c : ℚ)⌉
    ∧ (t = 0 → planChunks t c = [])
    ∧ (∀ hne : planChunks t c ≠ [],
        chunkLen ((planChunks t c).getLast hne)
          = t - (((planChunks t c).length : Int) - 1) * c
        ∧ 1 ≤ chunkLen ((planChunks t c).getLast hne)
        ∧ chunkLen ((planChunks t c).getLast hne) ≤ c)
    ∧ (t = c → (planChunks t c).length = 1)
    ∧ (t = c + 1 → (planChunks t c).length = 2
        ∧ ∀ h2 : 1 < (planChunks t c).length,
            chunkLen ((planChunks t c).get ⟨1, h2⟩) = 1) := by
  have hlen := planChunks_length t c
  have hN0 : 0 ≤ numChunksOf t c := numChunksOf_nonneg ht hc
  have hle := le_numChunksOf_mul ht hc
  refine ⟨?_, ?_, ?_, ?_, ?_⟩
  · -- chunk count is the ceiling of the rational quotient
    rcases lt_or_eq_of_le ht with ht0 | ht0
    · have hlt := numChunksOf_pred_mul_lt ht0 hc
      have hceil : ⌈(t : ℚ) / (c : ℚ)⌉ = numChunksOf t c := by
        rw [Int.ceil_eq_iff]
        have hcq : (0 : ℚ) < (c : ℚ) := by exact_mod_cast (by omega : (0:Int) < c)
        constructor
        · rw [lt_div_iff₀ hcq]
          have hq : ((numChunksOf t c - 1 : Int) : ℚ) * ((c : Int) : ℚ)
              < ((t : Int) : ℚ) := by exact_mod_cast hlt
          push_cast at hq ⊢
          linarith
        · rw [div_le_iff₀ hcq]
          exact_mod_cast hle
      rw [hceil, hlen]
      omega
    · have heq : t = 0 := ht0.symm
      subst heq
      rw [hlen, numChunksOf_eq_zero hc]
      norm_num
  · intro ht0
    subst ht0
    unfold planChunks
    rw [numChunksOf_eq_zero hc]
    simp
  · intro hne
    have hpos : 0 < (planChunks t c).length := List.length_pos.mpr hne
    have ht0 : 0 < t := by
      by_contra h
      push_neg at h
      exact hne ((planChunks_total t c hc).1 h)
    have hidx : (planChunks t c).length - 1 < (planChunks t c).length := by omega
    have hlast : (planChunks t c).getLast hne =
        (planChunks t c).get ⟨(planChunks t c).length - 1, hidx⟩ := by
      rw [List.getLast_eq_getElem]
      rfl
    rw [hlast, planChunks_get]
    have hcast : (((planChunks t c).length - 1 : Nat) : Int)
        = numChunksOf t c - 1 := by
      rw [hlen] at hpos ⊢
      omega
    unfold chunkLen
    dsimp only
    rw [hcast]
    have hmin2 : min ((numChunksOf t c - 1) * c + c) t = t := by
      have h9 : (numChunksOf t c - 1) * c + c = numChunksOf t c * c := by ring
      rw [h9]
      exact min_eq_right hle
    rw [hmin2]
    have hlt := numChunksOf_pred_mul_lt ht0 hc
    have hlenN : ((planChunks t c).length : Int) = numChunksOf t c := by
      rw [hlen]; omega
    have h2 : (numChunksOf t c - 1) * c = numChunksOf t c * c - c := by ring
    refine ⟨by rw [hlenN]; ring, by linarith, by linarith⟩
  · intro htc
    have h2 := numChunksOf_pred_mul_lt (show (0:Int) < t by omega) hc
    have h3 : numChunksOf t c ≤ 1 := by
      by_contra h
      push_neg at h
      have h4 : 1 ≤ numChunksOf t c - 1 := by omega
      have h5 : c ≤ (numChunksOf t c - 1) * c :=
        le_mul_of_one_le_left (by omega) h4
      linarith
    have h1 : 0 < numChunksOf t c := numChunksOf_pos (by omega) hc
    rw [hlen]
    omega
  · intro htc
    have h2 := numChunksOf_pred_mul_lt (show (0:Int) < t by omega) hc
    have hge : 2 ≤ numChunksOf t c := by
      by_contra h
      push_neg at h
      have h3 : numChunksOf t c * c ≤ 1 * c :=
        mul_le_mul_of_nonneg_right (by omega) (by omega)
      linarith
    have hle2 : numChunksOf t c ≤ 2 := by
      by_contra h
      push_neg at h
      have h4 : (2 : Int) ≤ numChunksOf t c - 1 := by omega
      have h5 : 2 * c ≤ (numChunksOf t c - 1) * c :=
        mul_le_mul_of_nonneg_right h4 (by omega)
      linarith
    have hNeq : numChunksOf t c = 2 := by omega
    constructor
    · rw [hlen, hNeq]
      rfl
    · intro h2i
      rw [planChunks_get]
      unfold chunkLen
      dsimp only
      simp only [Nat.cast_one, one_mul]
      omega

/-- Witness for `plan_count_and_sizes` at `t = 23`, `c = 5`
(the spec's 23MB/5MB scenario scaled down). -/

theorem plan_count_and_sizes_witness :
    (0 : Int) ≤ 23 ∧ (1 : Int) ≤ 5 ∧
      ((planChunks 23 5).length : Int) = ⌈(23 : ℚ) / (5 : ℚ)⌉ :=
  ⟨by decide, by decide, (plan_count_and_sizes 23 5 (by decide) (by decide)).1⟩

/-! ### C1: the planned chunks partition `[0, totalSize)` -/

lemma chunk_index_eq {c : Int} (hc : 1 ≤ c) {off : Int} {j : Nat}
    (h1 : (j : Int) * c ≤ off) (h2 : off < (j : Int) * c + c) :
    (j : Int) = off / c := by
  have hc0 : (0 : Int) < c := by omega
  have hqr := Int.ediv_add_emod off c
  have hr0 : 0 ≤ off % c := Int.emod_nonneg _ (by omega)
  have hrc : off % c < c := Int.emod_lt_of_pos _ hc0
  rcases lt_trichotomy ((j : Int)) (off / c) with h | h | h
  · exfalso
    have h3 : (j : Int) + 1 ≤ off / c := by omega
    have h4 : ((j : Int) + 1) * c ≤ (off / c) * c :=
      mul_le_mul_of_nonneg_right h3 (by omega)
    have h5 : (off / c) * c = c * (off / c) := by ring
    have h6 : ((j : Int) + 1) * c = (j : Int) * c + c := by ring
    linarith
  · exact h
  · exfalso
    have h3 : off / c + 1 ≤ (j : Int) := by omega
    have h4 : (off / c + 1) * c ≤ (j : Int) * c :=
      mul_le_mul_of_nonneg_right h3 (by omega)
    have h5 : (off / c + 1) * c = c * (off / c) + c := by ring
    linarith

/-- C1: for `totalSize ≥ 0` and `chunkSize ≥ 1` the planned descriptors
partition `[0, totalSize)`: chunk 0 starts at 0, each chunk starts right
after the previous chunk's inclusive end, the last chunk ends at
`totalSize - 1`, an offset lies in `[0, totalSize)` iff exactly one chunk
contains it, and `uploadFileParallel`'s per-chunk size computation agrees
with the planned descriptor lengths. -/

theorem plan_partitions (t c : Int) (ht : 0 ≤ t) (hc : 1 ≤ c) :
    (∀ hne : planChunks t c ≠ [], ((planChunks t c).head hne).start = 0)
    ∧ (∀ i : Nat, ∀ h1 : i + 1 < (planChunks t c).length,
        ((planChunks t c).get ⟨i + 1, h1⟩).start
          = ((planChunks t c).get ⟨i, Nat.lt_of_succ_lt h1⟩).endInc + 1)
    ∧ (∀ hne : planChunks t c ≠ [], ((planChunks t c).getLast hne).endInc = t - 1)
    ∧ (∀ off : Int, (0 ≤ off ∧ off < t) ↔
        ∃! i : Fin (planChunks t c).length,
          ((planChunks t c).get i).start ≤ off
            ∧ off ≤ ((planChunks t c).get i).endInc)
    ∧ (∀ i : Nat, ∀ h : i < (planChunks t c).length,
        uploadChunkSize t c i = chunkLen ((planChunks t c).get ⟨i, h⟩)) := by
  have hlen := planChunks_length t c
  have hle := le_numChunksOf_mul ht hc
  refine ⟨?_, ?_, ?_, ?_, ?_⟩
  · -- first chunk starts at offset 0
    intro hne
    have hpos : 0 < (planChunks t c).length := List.length_pos.mpr hne
    have hhead : (planChunks t c).head hne = (planChunks t c).get ⟨0, hpos⟩ := by
      rw [List.head_eq_getElem, List.get_eq_getElem]
    rw [hhead, planChunks_get]
    simp
  · -- adjacency: next start = previous inclusive end + 1
    intro i h1
    rw [planChunks_get, planChunks_get]
    dsimp only
    have hlt : ((i : Nat) + 1 : Int) * c < t := by
      have h8 := index_mul_lt ht hc (i := i + 1) (by omega : i + 1 < (numChunksOf t c).toNat)
      push_cast at h8
      linarith
    have hmin : min ((i : Int) * c + c) t = (i : Int) * c + c := by
      apply min_eq_left
      have h9 : ((i : Nat) + 1 : Int) * c = (i : Int) * c + c := by ring
      linarith
    rw [hmin]
    push_cast
    ring
  · -- the last chunk ends exactly at totalSize - 1
    intro hne
    have hpos : 0 < (planChunks t c).length := List.length_pos.mpr hne
    have hidx : (planChunks t c).length - 1 < (planChunks t c).length := by omega
    have hlast : (planChunks t c).getLast hne =
        (planChunks t c).get ⟨(planChunks t c).length - 1, hidx⟩ := by
      rw [List.getLast_eq_getElem, List.get_eq_getElem]
    rw [hlast, planChunks_get]
    dsimp only
    have hcast : (((planChunks t c).length - 1 : Nat) : Int)
        = numChunksOf t c - 1 := by
      rw [hlen] at hpos ⊢
      omega
    rw [hcast]
    have h9 : (numChunksOf t c - 1) * c + c = numChunksOf t c * c := by ring
    rw [h9, min_eq_right hle]
  · -- an offset is in [0, totalSize) iff exactly one chunk contains it
    intro off
    constructor
    · rintro ⟨hoff0, hofft⟩
      have hc0 : (0 : Int) < c := by omega
      have hq0 : 0 ≤ off / c := Int.ediv_nonneg hoff0 (by omega)
      have hqr := Int.ediv_add_emod off c
      have hr0 : 0 ≤ off % c := Int.emod_nonneg _ (by omega)
      have hrc : off % c < c := Int.emod_lt_of_pos _ hc0
      have hqN : off / c < numChunksOf t c := by
        rw [Int.ediv_lt_iff_lt_mul hc0]
        calc off < t := hofft
          _ ≤ numChunksOf t c * c := hle
      have hilen : (off / c).toNat < (planChunks t c).length := by
        rw [hlen]
        omega
      refine ⟨⟨(off / c).toNat, hilen⟩, ?_, ?_⟩
      · dsimp only
        rw [planChunks_get]
        dsimp only
        have hcast : (((off / c).toNat : Nat) : Int) = off / c := by omega
        rw [hcast]
        constructor
        · have h5 : (off / c) * c = c * (off / c) := by ring
          linarith
        · have h5 : (off / c) * c = c * (off / c) := by ring
          omega
      · rintro ⟨j, hj⟩ hcont
        rw [planChunks_get] at hcont
        dsimp only at hcont
        have hjq : (j : Int) = off / c := by
          apply chunk_index_eq hc hcont.1
          have := hcont.2
          omega
        have : j = (off / c).toNat := by omega
        exact Fin.ext this
    · rintro ⟨⟨i, hi⟩, hcont, _⟩
      rw [planChunks_get] at hcont
      dsimp only at hcont
      have h1 : 0 ≤ ((i : Nat) : Int) * c :=
        mul_nonneg (by positivity) (by omega)
      have h2 : ((i : Nat) : Int) * c + c ≤ t + c := by
        have h3 := index_mul_lt ht hc (i := i) (by rw [← hlen]; exact hi)
        linarith
      constructor
      · linarith [hcont.1]
      · have := hcont.2
        omega
  · -- the upload path's per-chunk size equals the planned chunk length
    intro i h
    rw [planChunks_get]
    unfold uploadChunkSize chunkLen
    dsimp only
    rcases le_or_lt ((i : Int) * c + c) t with hle2 | hlt2
    · rw [if_neg (by omega), min_eq_left hle2]
      ring
    · rw [if_pos (by omega), min_eq_right (by omega)]
      ring

/-- Witness for `plan_partitions` at `t = 7`, `c = 3`. -/

theorem plan_partitions_witness :
    (0 : Int) ≤ 7 ∧ (1 : Int) ≤ 3 ∧
      (∀ hne : planChunks 7 3 ≠ [], ((planChunks 7 3).getLast hne).endInc = 7 - 1) :=
  ⟨by decide, by decide, (plan_partitions 7 3 (by decide) (by decide)).2.2.1⟩

/-- C7: with a total object store, the range-stream operation succeeds exactly
when the requested pair `(start, end)` satisfies
`0 ≤ start ≤ end < totalSize`; an out-of-bounds pair is rejected with the
invalid-range error uniformly in the store, i.e. before any object-store
I/O. -/

theorem range_stream_validates (f : RangeForm) (size : Int)
    (fetch : Int → Int → Option (List Nat))
    (hfetch : ∀ s e, fetch s e ≠ none) :
    (isOkE (rangeStream fetch size f) = true ↔
      (0 ≤ (computeRange f size).1
        ∧ (computeRange f size).1 ≤ (computeRange f size).2
        ∧ (computeRange f size).2 < size))
    ∧ (¬(0 ≤ (computeRange f size).1
        ∧ (computeRange f size).1 ≤ (computeRange f size).2
        ∧ (computeRange f size).2 < size) →
        ∀ fetch2 : Int → Int → Option (List Nat),
          rangeStream fetch2 size f = Except.error "invalid range") := by
  have hok : ∀ s e : Int, rangeOk s e size = true ↔
      (0 ≤ s ∧ s ≤ e ∧ e < size) := by
    intro s e
    unfold rangeOk
    constructor
    · intro h
      simp only [Bool.not_eq_eq_eq_not, Bool.not_true, Bool.or_eq_false_iff,
        decide_eq_false_iff_not] at h
      omega
    · intro h
      simp only [Bool.not_eq_eq_eq_not, Bool.not_true, Bool.or_eq_false_iff,
        decide_eq_false_iff_not]
      omega
  constructor
  · unfold rangeStream parseRangeItem
    rcases hcase : rangeOk (computeRange f size).1 (computeRange f size).2 size with _ | _
    · simp only [hcase, if_neg]
      constructor
      · intro h
        simp [isOkE] at h
      · intro h
        rw [← hok (computeRange f size).1 (computeRange f size).2] at h
        rw [hcase] at h
        exact absurd h (by simp)
    · simp only [hcase, if_pos]
      have hvalid := (hok (computeRange f size).1 (computeRange f size).2).mp hcase
      unfold getFileDataRange
      rw [if_neg (by omega), if_neg (by omega), if_neg (by omega)]
      rcases hfe : fetch (computeRange f size).1 (computeRange f size).2 with _ | bs
      · exact absurd hfe (hfetch _ _)
      · simp only [isOkE]
        constructor
        · intro _
          exact hvalid
        · intro _
          trivial
  · intro hbad fetch2
    unfold rangeStream parseRangeItem
    dsimp only
    have hfalse : rangeOk (computeRange f size).1 (computeRange f size).2 size = false := by
      rcases hcase : rangeOk (computeRange f size).1 (computeRange f size).2 size with _ | _
      · rfl
      · exact absurd ((hok _ _).mp hcase) hbad
    rw [hfalse]
    simp

/-- Witness for `range_stream_validates`: the request `bytes=2-5` against a
file of 10 bytes is served; the fetch function is total. -/

theorem range_stream_validates_witness :
    (∀ s e : Int, (fun _ _ => some ([] : List Nat)) s e ≠ none) ∧
      (isOkE (rangeStream (fun _ _ => some []) 10 (.closed 2 5)) = true ↔
        (0 ≤ (computeRange (.closed 2 5) 10).1
          ∧ (computeRange (.closed 2 5) 10).1 ≤ (computeRange (.closed 2 5) 10).2
          ∧ (computeRange (.closed 2 5) 10).2 < 10)) :=
  ⟨fun _ _ => by simp,
    (range_stream_validates (.closed 2 5) 10 (fun _ _ => some [])
      (fun _ _ => by simp)).1⟩

/-- C10: `UploadFile` rejects any request whose declared size exceeds
`maxFileSize = 100*1024*1024` before reaching any object-store write (the
gate never yields `proceed` for such a size, and when the earlier quota and
parameter gates pass the error is precisely `errFileTooLarge`), and never
reports `errFileTooLarge` for a size at or below the limit. -/

theorem uploadFile_size_gate (space valid : Bool) (size : Int) :
    (space = true → valid = true → size > maxFileSize →
      uploadFileGate space valid size = .errFileTooLarge)
    ∧ (size ≤ maxFileSize → uploadFileGate space valid size ≠ .errFileTooLarge)
    ∧ (size > maxFileSize → uploadFileGate space valid size ≠ .proceed) := by
  unfold uploadFileGate
  cases space <;> cases valid <;>
    refine ⟨?_, ?_, ?_⟩ <;> intros <;> simp_all

/-- Witness for `uploadFile_size_gate`: a 100MB + 1 byte file is rejected as
too large. -/

theorem uploadFile_size_gate_witness :
    uploadFileGate true true (100 * 1024 * 1024 + 1) = .errFileTooLarge :=
  (uploadFile_size_gate true true (100 * 1024 * 1024 + 1)).1 rfl rfl
    (by unfold maxFileSize; omega)

/-- C4 counterexample: on the upload path a transient failure of the single
`UploadBytes` call surfaces as an error even though the next attempt (which
the claim requires and the code never makes) would have succeeded. -/

theorem upload_no_retry_counterexample :
    uploadChunkSend none (fun k => if k = 0 then some "transient" else none)
        = some "transient"
    ∧ (fun k => if k = 0 then some "transient" else none) 1 = none :=
  ⟨rfl, rfl⟩

/-- C4 (amended): the download worker attempts a chunk up to `maxRetries = 3`
times, sleeping `(retry+1)` seconds after each failed attempt (including the
last one), and surfaces an error only when all three attempts fail — a
transient failure followed by a success surfaces no error; the upload worker
makes exactly one attempt, surfacing the first call's outcome. -/

theorem retry_policy (outcome : Nat → Option String) :
    (outcome 0 = none → downloadChunkFetch outcome = (none, []))
    ∧ (∀ e0, outcome 0 = some e0 → outcome 1 = none →
        downloadChunkFetch outcome = (none, [1]))
    ∧ (∀ e0 e1, outcome 0 = some e0 → outcome 1 = some e1 → outcome 2 = none →
        downloadChunkFetch outcome = (none, [1, 2]))
    ∧ (∀ e0 e1 e2, outcome 0 = some e0 → outcome 1 = some e1 →
        outcome 2 = some e2 →
        downloadChunkFetch outcome = (some e2, [1, 2, 3]))
    ∧ (∀ s3 : Nat → Option String, uploadChunkSend none s3 = s3 0) := by
  refine ⟨?_, ?_, ?_, ?_, ?_⟩
  · intro h0
    simp [downloadChunkFetch, maxRetries, fetchRetryAux, h0]
  · intro e0 h0 h1
    simp [downloadChunkFetch, maxRetries, fetchRetryAux, h0, h1]
  · intro e0 e1 h0 h1 h2
    simp [downloadChunkFetch, maxRetries, fetchRetryAux, h0, h1, h2]
  · intro e0 e1 e2 h0 h1 h2
    simp [downloadChunkFetch, maxRetries, fetchRetryAux, h0, h1, h2]
  · intro s3
    rfl

/-- Witness for `retry_policy`: every attempt fails, the surfaced error is the
third attempt's and the worker slept 1s, 2s and 3s. -/

theorem retry_policy_witness :
    downloadChunkFetch (fun _ => some "fetch failed") = (some "fetch failed", [1, 2, 3]) :=
  (retry_policy (fun _ => some "fetch failed")).2.2.2.1 "fetch failed"
    "fetch failed" "fetch failed" rfl rfl rfl

lemma workerRun_split (outcome : Nat → Option String) (q : List Nat) :
    ((workerRun outcome q).1.map Prod.fst) ++ (workerRun outcome q).2 = q := by
  induction q with
  | nil => rfl
  | cons i rest ih =>
    unfold workerRun
    rcases h : outcome i with _ | e
    · dsimp only
      rw [List.map_cons, List.cons_append, ih]
    · rfl

lemma workerRun_all_none (outcome : Nat → Option String) (q : List Nat)
    (h : ∀ i ∈ q, outcome i = none) :
    workerRun outcome q = (q.map fun i => (i, none), []) := by
  induction q with
  | nil => rfl
  | cons i rest ih =>
    unfold workerRun
    rw [h i (by simp)]
    dsimp only
    rw [ih (fun j hj => h j (by simp [hj]))]
    simp

lemma poolRun_nil (outcome : Nat → Option String) (w : Nat) :
    poolRun outcome [] w = [] := by
  induction w with
  | zero => rfl
  | succ w ih =>
    unfold poolRun
    simp [workerRun, ih]

/-- C5 counterexample: six chunks, every fetch failing terminally, five
workers — each worker sends one error result and exits, so only five results
are ever delivered and the sixth descriptor (index 5) receives no result at
all. -/

theorem pool_zero_results_counterexample :
    (poolRun (fun _ => some "fetch failed") [0, 1, 2, 3, 4, 5] maxWorkers).length = 5
    ∧ ∀ r ∈ poolRun (fun _ => some "fetch failed") [0, 1, 2, 3, 4, 5] maxWorkers,
        r.1 ≠ 5 := by
  decide

/-- C5 (amended): in a serialised pool execution every descriptor receives at
most one result (the delivered indices form a sublist of the queue, hence at
most one result per descriptor of a duplicate-free queue), and when no fetch
fails every descriptor receives exactly one result. -/

theorem pool_at_most_once (outcome : Nat → Option String) (queue : List Nat)
    (w : Nat) :
    ((poolRun outcome queue w).map Prod.fst).Sublist queue
    ∧ (queue.Nodup → ∀ i, ((poolRun outcome queue w).map Prod.fst).count i ≤ 1)
    ∧ ((∀ i ∈ queue, outcome i = none) → 1 ≤ w →
        (poolRun outcome queue w).map Prod.fst = queue) := by
  have hsub : ∀ w2 queue2, ((poolRun outcome queue2 w2).map Prod.fst).Sublist queue2 := by
    intro w2
    induction w2 with
    | zero => intro queue2; exact List.nil_sublist queue2
    | succ w2 ih =>
      intro queue2
      unfold poolRun
      rw [List.map_append]
      have h1 := ih (workerRun outcome queue2).2
      have h2 : (((workerRun outcome queue2).1.map Prod.fst)
            ++ ((poolRun outcome (workerRun outcome queue2).2 w2).map Prod.fst)).Sublist
          (((workerRun outcome queue2).1.map Prod.fst)
            ++ (workerRun outcome queue2).2) :=
        List.Sublist.append_left h1 _
      rw [workerRun_split] at h2
      exact h2
  refine ⟨hsub w queue, ?_, ?_⟩
  · intro hnodup i
    have h1 := (hsub w queue).count_le i
    have h2 := List.nodup_iff_count_le_one.mp hnodup i
    omega
  · intro hall hw
    cases w with
    | zero => omega
    | succ w =>
      unfold poolRun
      rw [workerRun_all_none outcome queue hall]
      dsimp only
      rw [poolRun_nil]
      simp [Function.comp_def]

/-- Witness for `pool_at_most_once`: three chunks, no failures, five workers —
every descriptor gets exactly one result. -/

theorem pool_at_most_once_witness :
    [0, 1, 2].Nodup ∧ (∀ i ∈ [0, 1, 2], (fun _ => (none : Option String)) i = none) ∧
      (poolRun (fun _ => none) [0, 1, 2] maxWorkers).map Prod.fst = [0, 1, 2] :=
  ⟨by decide, by decide,
    (pool_at_most_once (fun _ => none) [0, 1, 2] maxWorkers).2.2
      (by intro i _; rfl) (by decide)⟩

/-- C8 counterexample: two chunks, the first uploads fine, the second fails —
the upload returns the error, chunk 0's object has been written, and the
operation trace contains no delete: no best-effort cleanup is attempted. -/

theorem upload_no_cleanup_counterexample :
    (uploadFileParallelRun (fun _ => none)
        (fun i => if i = 1 then some "s3 operation failed" else none) 2).1
      = some "s3 operation failed"
    ∧ (uploadFileParallelRun (fun _ => none)
        (fun i => if i = 1 then some "s3 operation failed" else none) 2).2
      = [StoreOp.put 0]
    ∧ ∀ op ∈ (uploadFileParallelRun (fun _ => none)
        (fun i => if i = 1 then some "s3 operation failed" else none) 2).2,
        isDeleteOp op = false := by
  refine ⟨rfl, rfl, ?_⟩
  decide

/-- C8 (amended): `uploadFileParallel` reports success iff every chunk's read
and upload succeeded — a single failed chunk fails the whole upload — and
its store-operation trace never contains a delete: already-written chunks
are not cleaned up on failure. -/

theorem uploadFileParallel_success_iff (readRes uploadRes : Nat → Option String)
    (n : Nat) :
    ((uploadFileParallelRun readRes uploadRes n).1 = none ↔
      ∀ i < n, readRes i = none ∧ uploadRes i = none)
    ∧ ∀ op ∈ (uploadFileParallelRun readRes uploadRes n).2,
        isDeleteOp op = false := by
  constructor
  · unfold uploadFileParallelRun
    dsimp only
    rw [List.head?_eq_none_iff, List.filterMap_eq_nil_iff, List.map_map]
    constructor
    · intro h i hi
      have h2 := h _ (List.mem_map.mpr ⟨i, List.mem_range.mpr hi, rfl⟩)
      simp only [Function.comp_apply, id_eq] at h2
      unfold uploadChunkStep at h2
      rcases hr : readRes i with _ | e
      · rcases hu : uploadRes i with _ | e
        · exact ⟨rfl, rfl⟩
        · rw [hr, hu] at h2
          simp at h2
      · rw [hr] at h2
        simp at h2
    · intro h x hx
      rcases List.mem_map.mp hx with ⟨i, hi, rfl⟩
      have h2 := h i (List.mem_range.mp hi)
      simp only [Function.comp_apply, id_eq]
      unfold uploadChunkStep
      rw [h2.1, h2.2]
  · intro op hop
    unfold uploadFileParallelRun at hop
    dsimp only at hop
    rw [List.map_map] at hop
    rcases List.mem_flatten.mp hop with ⟨l, hl, hop2⟩
    rcases List.mem_map.mp hl with ⟨i, _, rfl⟩
    simp only [Function.comp_apply] at hop2
    unfold uploadChunkStep at hop2
    rcases hr : readRes i with _ | e
    · rcases hu : uploadRes i with _ | e
      · rw [hr, hu] at hop2
        simp only [] at hop2
        rcases List.mem_singleton.mp hop2 with rfl
        rfl
      · rw [hr, hu] at hop2
        simp at hop2
    · rw [hr] at hop2
      simp at hop2

/-- Witness for `uploadFileParallel_success_iff`: an all-successful two-chunk
upload reports success. -/

theorem uploadFileParallel_success_iff_witness :
    ((uploadFileParallelRun (fun _ => none) (fun _ => none) 2).1 = none ↔
      ∀ i < 2, (fun _ => (none : Option String)) i = none
        ∧ (fun _ => (none : Option String)) i = none) :=
  (uploadFileParallel_success_iff (fun _ => none) (fun _ => none) 2).1

/-- C3 (code-bug evidence): a two-chunk download of the three-byte file
`[7, 7, 9]` whose first chunk `[7, 7]` arrives and whose second chunk fails
terminally: the writer stops, the deferred `pw.Close()` closes the pipe
cleanly, and the reader observes the partial data `[7, 7]` followed by a
clean EOF — indistinguishable from success — while the error reaches only
the never-read `errors` channel. -/

theorem download_failure_clean_eof :
    downloadReaderView [⟨0, [7, 7], none⟩, ⟨2, [], some "fetch failed"⟩]
      = ([7, 7], none)
    ∧ (writerLoop [⟨0, [7, 7], none⟩, ⟨2, [], some "fetch failed"⟩] initSink).2
      = some "fetch failed" := by
  constructor <;> rfl

lemma findChunk_none_iff {buf : List (Nat × List Nat)} {key : Nat} :
    findChunk buf key = none ↔ ∀ x ∈ buf, x.1 ≠ key := by
  induction buf with
  | nil => simp [findChunk]
  | cons hd tl ih =>
    obtain ⟨k, d⟩ := hd
    unfold findChunk
    rcases eq_or_ne k key with h | h
    · subst h
      simp
    · rw [if_neg h, ih]
      constructor
      · intro hall x hx
        rcases List.mem_cons.mp hx with rfl | hx2
        · exact h
        · exact hall x hx2
      · intro hall x hx
        exact hall x (List.mem_cons_of_mem _ hx)

lemma removeChunk_eq_of_none {buf : List (Nat × List Nat)} {key : Nat}
    (h : findChunk buf key = none) : removeChunk buf key = buf := by
  induction buf with
  | nil => rfl
  | cons hd tl ih =>
    obtain ⟨k, d⟩ := hd
    unfold findChunk at h
    unfold removeChunk
    rcases eq_or_ne k key with he | he
    · rw [if_pos he] at h
      exact absurd h (by simp)
    · rw [if_neg he] at h
      rw [if_neg he, ih h]

lemma findChunk_some_decomp {buf : List (Nat × List Nat)} {key : Nat}
    {d : List Nat} (h : findChunk buf key = some d) :
    ∃ l1 l2, buf = l1 ++ (key, d) :: l2 ∧ removeChunk buf key = l1 ++ l2
      ∧ ∀ x ∈ l1, x.1 ≠ key := by
  induction buf with
  | nil => simp [findChunk] at h
  | cons hd tl ih =>
    obtain ⟨k, v⟩ := hd
    unfold findChunk at h
    rcases eq_or_ne k key with he | he
    · rw [if_pos he] at h
      have hv : v = d := by injection h
      subst hv
      subst he
      refine ⟨[], tl, by simp, ?_, by simp⟩
      unfold removeChunk
      simp
    · rw [if_neg he] at h
      obtain ⟨l1, l2, hbuf, hrem, hl1⟩ := ih h
      refine ⟨(k, v) :: l1, l2, by rw [hbuf]; rfl, ?_, ?_⟩
      · unfold removeChunk
        rw [if_neg he, hrem]
        rfl
      · intro x hx
        rcases List.mem_cons.mp hx with rfl | hx2
        · exact he
        · exact hl1 x hx2

lemma chunkAtN_len (content : List Nat) (c2 i : Nat) :
    (chunkAtN content c2 i).2.length = min c2 (content.length - i * c2) := by
  unfold chunkAtN
  rw [List.length_take, List.length_drop]

lemma sinkChunks_mem {content : List Nat} {c2 M : Nat} {x : Nat × List Nat} :
    x ∈ sinkChunks content c2 M ↔ ∃ i, i < M ∧ x = chunkAtN content c2 i := by
  unfold sinkChunks
  constructor
  · intro hx
    rcases List.mem_map.mp hx with ⟨i, hi, rfl⟩
    exact ⟨i, List.mem_range.mp hi, rfl⟩
  · rintro ⟨i, hi, rfl⟩
    exact List.mem_map.mpr ⟨i, List.mem_range.mpr hi, rfl⟩

lemma sinkChunks_keys_nodup (content : List Nat) (c2 M : Nat) (hc2 : 1 ≤ c2) :
    ((sinkChunks content c2 M).map Prod.fst).Nodup := by
  unfold sinkChunks
  rw [List.map_map]
  have h1 : (Prod.fst ∘ chunkAtN content c2) = fun i => i * c2 := rfl
  rw [h1]
  refine List.Nodup.map ?_ (List.nodup_range _)
  intro a b hab
  exact Nat.eq_of_mul_eq_mul_right (by omega) hab

lemma downloadResults_eq (content : List Nat) (c : Int) (hc : 1 ≤ c) :
    downloadResults content c
      = sinkChunks content c.toNat
          (numChunksOf (content.length : Int) c).toNat := by
  obtain ⟨c2, rfl⟩ : ∃ c2 : Nat, c = (c2 : Int) :=
    ⟨c.toNat, (Int.toNat_of_nonneg (by omega)).symm⟩
  have hc2 : 1 ≤ c2 := by exact_mod_cast hc
  unfold downloadResults sinkChunks planChunks
  rw [List.map_map]
  apply List.map_congr_left
  intro i hi
  rw [List.mem_range] at hi
  have hiL : i * c2 < content.length := by
    have h8 := index_mul_lt (t := (content.length : Int)) (by positivity) hc hi
    rw [← Nat.cast_mul] at h8
    exact_mod_cast h8
  simp only [Function.comp_apply]
  have hstart : ((i : Int) * (c2 : Int)).toNat = i * c2 := by
    rw [← Nat.cast_mul]
    omega
  have hend : (min ((i : Int) * (c2 : Int) + (c2 : Int)) (content.length : Int) - 1).toNat
      = min (i * c2 + c2) content.length - 1 := by
    rw [← Nat.cast_mul]
    omega
  have htn : ((c2 : Int)).toNat = c2 := by omega
  unfold chunkAtN chunkPayload
  rw [htn, hstart, hend]
  have h9 : min (i * c2 + c2) content.length - 1 + 1 - i * c2
      = min (i * c2 + c2) content.length - i * c2 := by
    omega
  rw [h9]
  have h10 : (content.drop (i * c2)).take
        (min (i * c2 + c2) content.length - i * c2)
      = (content.drop (i * c2)).take c2 := by
    rw [List.take_eq_take, List.length_drop]
    omega
  rw [h10]

lemma drainLoop_inv (content : List Nat) (c2 M : Nat) (hc2 : 1 ≤ c2)
    (hF1 : ∀ i, i < M → i * c2 < content.length) :
    ∀ fuel buf cur out,
      buf.length ≤ fuel →
      (∀ x ∈ buf, x ∈ sinkChunks content c2 M) →
      (buf.map Prod.fst).Nodup →
      (∀ x ∈ buf, cur ≤ x.1) →
      out = content.take cur →
      (∃ k, k ≤ M ∧ cur = min (k * c2) content.length) →
      ((drainLoop fuel buf cur out).buf.map Prod.fst).Nodup
      ∧ (drainLoop fuel buf cur out).out
          = content.take (drainLoop fuel buf cur out).cur
      ∧ (∃ k, k ≤ M ∧ (drainLoop fuel buf cur out).cur
          = min (k * c2) content.length)
      ∧ cur ≤ (drainLoop fuel buf cur out).cur
      ∧ (∀ x, x ∈ (drainLoop fuel buf cur out).buf
          ↔ (x ∈ buf ∧ (drainLoop fuel buf cur out).cur ≤ x.1))
      ∧ findChunk (drainLoop fuel buf cur out).buf
          (drainLoop fuel buf cur out).cur = none
      ∧ (∀ j, j < M → j * c2 < (drainLoop fuel buf cur out).cur →
          j * c2 < cur ∨ chunkAtN content c2 j ∈ buf) := by
  intro fuel
  induction fuel with
  | zero =>
    intro buf cur out hlen hmemS hkeys hge hout hbd
    have hbuf : buf = [] := List.length_eq_zero.mp (by omega)
    subst hbuf
    simp only [drainLoop]
    exact ⟨by simp, hout, hbd, le_refl _, by simp, rfl,
      fun j hj hlt => Or.inl hlt⟩
  | succ fuel ih =>
    intro buf cur out hlen hmemS hkeys hge hout hbd
    rcases hfind : findChunk buf cur with _ | d
    · have hstep : drainLoop (fuel + 1) buf cur out = ⟨buf, cur, out⟩ := by
        simp only [drainLoop, hfind]
      rw [hstep]
      exact ⟨hkeys, hout, hbd, le_refl _,
        fun x => ⟨fun hx => ⟨hx, hge x hx⟩, fun hx => hx.1⟩, hfind,
        fun j hj hlt => Or.inl hlt⟩
    · obtain ⟨l1, l2, hbuf, hrem, hl1⟩ := findChunk_some_decomp hfind
      have hmem_cd : (cur, d) ∈ buf := by
        rw [hbuf]
        exact List.mem_append_right _ (List.mem_cons_self _ _)
      obtain ⟨j, hjM, hcd⟩ := sinkChunks_mem.mp (hmemS _ hmem_cd)
      have hcur_eq : cur = j * c2 := congrArg Prod.fst hcd
      have hd_eq : d = (content.drop (j * c2)).take c2 := congrArg Prod.snd hcd
      have hjL : j * c2 < content.length := hF1 j hjM
      have hd_len : d.length = min c2 (content.length - j * c2) := by
        rw [hd_eq, List.length_take, List.length_drop]
      have hcur2 : cur + d.length = min ((j + 1) * c2) content.length := by
        rw [hcur_eq, hd_len, Nat.succ_mul]
        omega
      have hstep : drainLoop (fuel + 1) buf cur out
          = drainLoop fuel (removeChunk buf cur) (cur + d.length) (out ++ d) := by
        simp only [drainLoop, hfind]
      have hkeys_buf : buf.map Prod.fst
          = l1.map Prod.fst ++ cur :: l2.map Prod.fst := by
        rw [hbuf]
        simp
      have hsubl : (removeChunk buf cur).Sublist buf := by
        rw [hrem, hbuf]
        exact List.Sublist.append_left (List.sublist_cons_self _ _) _
      have hkeys2 : ((removeChunk buf cur).map Prod.fst).Nodup :=
        (hsubl.map Prod.fst).nodup hkeys
      have hcur_notin_l2 : cur ∉ l2.map Prod.fst := by
        rw [hkeys_buf] at hkeys
        exact (List.nodup_cons.mp (List.Nodup.of_append_right hkeys)).1
      have hne_cur : ∀ x ∈ removeChunk buf cur, x.1 ≠ cur := by
        intro x hx
        rw [hrem] at hx
        rcases List.mem_append.mp hx with h15 | h15
        · exact hl1 x h15
        · intro hcon
          exact hcur_notin_l2 (List.mem_map.mpr ⟨x, h15, hcon⟩)
      have hge2 : ∀ x ∈ removeChunk buf cur, cur + d.length ≤ x.1 := by
        intro x hx
        have hxb : x ∈ buf := hsubl.subset hx
        obtain ⟨j2, hj2M, hx_eq⟩ := sinkChunks_mem.mp (hmemS _ hxb)
        have hx1 : x.1 = j2 * c2 := congrArg Prod.fst hx_eq
        have hxge : cur ≤ x.1 := hge x hxb
        have hxne := hne_cur x hx
        have hjlt : j < j2 := by
          by_contra hcon
          push_neg at hcon
          have h16 := Nat.mul_le_mul_right c2 hcon
          omega
        have h11 : (j + 1) * c2 ≤ j2 * c2 := Nat.mul_le_mul_right c2 hjlt
        omega
      have hout2 : out ++ d = content.take (cur + d.length) := by
        have h12 : (content.drop (j * c2)).take d.length
            = (content.drop (j * c2)).take c2 := by
          rw [List.take_eq_take, List.length_drop]
          omega
        have h13 : (content.drop (j * c2)).take d.length = d := by
          rw [h12, ← hd_eq]
        rw [hout, hcur_eq]
        conv_rhs => rw [List.take_add]
        rw [h13]
      have hbd2 : ∃ k, k ≤ M ∧ cur + d.length = min (k * c2) content.length :=
        ⟨j + 1, by omega, hcur2⟩
      have hmemS2 : ∀ x ∈ removeChunk buf cur, x ∈ sinkChunks content c2 M :=
        fun x hx => hmemS x (hsubl.subset hx)
      have hlen2 : (removeChunk buf cur).length ≤ fuel := by
        rw [hrem]
        rw [hbuf] at hlen
        simp at hlen ⊢
        omega
      have post := ih (removeChunk buf cur) (cur + d.length) (out ++ d)
        hlen2 hmemS2 hkeys2 hge2 hout2 hbd2
      rw [hstep]
      obtain ⟨p1, p2, p3, p4, p5, p6, p7⟩ := post
      refine ⟨p1, p2, p3, by omega, ?_, p6, ?_⟩
      · intro x
        rw [p5 x]
        constructor
        · rintro ⟨hx, hcle⟩
          exact ⟨hsubl.subset hx, hcle⟩
        · rintro ⟨hxb, hcle⟩
          refine ⟨?_, hcle⟩
          have h14 : 1 ≤ d.length := by
            rw [hd_len]
            omega
          have hxne : x.1 ≠ cur := by omega
          rw [hrem]
          rw [hbuf] at hxb
          rcases List.mem_append.mp hxb with h15 | h15
          · exact List.mem_append_left _ h15
          · rcases List.mem_cons.mp h15 with h16 | h16
            · exfalso
              apply hxne
              rw [h16]
            · exact List.mem_append_right _ h16
      · intro j2 hj2 hlt
        rcases p7 j2 hj2 hlt with h17 | h17
        · rcases Nat.lt_or_ge (j2 * c2) cur with h18 | h18
          · exact Or.inl h18
          · right
            have h19 : j2 * c2 < (j + 1) * c2 := by omega
            have h20 : j2 < j + 1 := lt_of_mul_lt_mul_right h19 (Nat.zero_le c2)
            have h21 : j ≤ j2 := by
              by_contra hcon
              push_neg at hcon
              have h22 := Nat.mul_le_mul_right c2 (show j2 + 1 ≤ j by omega)
              have h23 : (j2 + 1) * c2 = j2 * c2 + c2 := by ring
              omega
            have h24 : j2 = j := by omega
            rw [h24, ← hcd]
            exact hmem_cd
        · exact Or.inr (hsubl.subset h17)

lemma accept_inv (content : List Nat) (c2 M : Nat) (hc2 : 1 ≤ c2)
    (hF1 : ∀ i, i < M → i * c2 < content.length)
    (p : List (Nat × List Nat)) (x : Nat × List Nat) (st : SinkState)
    (hmemS : ∀ y ∈ p ++ [x], y ∈ sinkChunks content c2 M)
    (hkeys : ((p ++ [x]).map Prod.fst).Nodup)
    (hinv : SinkInv content c2 M p st) :
    SinkInv content c2 M (p ++ [x]) (acceptChunk st x) := by
  obtain ⟨xk, xd⟩ := x
  obtain ⟨i1, i2, i3, i4, i5, i6⟩ := hinv
  have hxS : (xk, xd) ∈ sinkChunks content c2 M :=
    hmemS _ (List.mem_append_right _ (List.mem_cons_self _ _))
  obtain ⟨jx, hjxM, hx_eq⟩ := sinkChunks_mem.mp hxS
  have hxk : xk = jx * c2 := congrArg Prod.fst hx_eq
  have hdisj : xk ∉ p.map Prod.fst := by
    rw [List.map_append] at hkeys
    have h1 := List.nodup_append.mp hkeys
    intro hcon
    exact h1.2.2 hcon (by simp)
  have hbufne : ∀ y ∈ st.buf, y.1 ≠ xk := by
    intro y hy hcon
    have hyp : y ∈ p := ((i4 y).mp hy).1
    exact hdisj (hcon ▸ List.mem_map.mpr ⟨y, hyp, rfl⟩)
  have hfindx : findChunk st.buf xk = none := findChunk_none_iff.mpr hbufne
  have hbuf2 : mapSet st.buf xk xd = st.buf ++ [(xk, xd)] := by
    unfold mapSet
    rw [removeChunk_eq_of_none hfindx]
  have hxk_ge : st.cur ≤ xk := by
    by_contra hcon
    push_neg at hcon
    have h2 : jx * c2 < st.cur := hxk ▸ hcon
    have h3 := i6 jx hjxM h2
    apply hdisj
    exact List.mem_map.mpr ⟨chunkAtN content c2 jx, h3, by rw [← hx_eq]⟩
  have hmem2 : ∀ y ∈ st.buf ++ [(xk, xd)], y ∈ sinkChunks content c2 M := by
    intro y hy
    rcases List.mem_append.mp hy with h4 | h4
    · exact hmemS y (List.mem_append_left _ ((i4 y).mp h4).1)
    · rcases List.mem_cons.mp h4 with rfl | h5
      · exact hxS
      · simp at h5
  have hkeys2 : ((st.buf ++ [(xk, xd)]).map Prod.fst).Nodup := by
    rw [List.map_append]
    refine List.Nodup.append i1 (by simp) ?_
    intro a ha hb
    simp at hb
    rcases List.mem_map.mp ha with ⟨y, hy, rfl⟩
    exact hbufne y hy hb
  have hge2 : ∀ y ∈ st.buf ++ [(xk, xd)], st.cur ≤ y.1 := by
    intro y hy
    rcases List.mem_append.mp hy with h4 | h4
    · exact ((i4 y).mp h4).2
    · rcases List.mem_cons.mp h4 with rfl | h5
      · exact hxk_ge
      · simp at h5
  have hacc : acceptChunk st (xk, xd)
      = drainLoop (st.buf ++ [(xk, xd)]).length (st.buf ++ [(xk, xd)])
          st.cur st.out := by
    unfold acceptChunk
    dsimp only
    rw [hbuf2]
  have post := drainLoop_inv content c2 M hc2 hF1
    (st.buf ++ [(xk, xd)]).length (st.buf ++ [(xk, xd)]) st.cur st.out
    (le_refl _) hmem2 hkeys2 hge2 i2 i3
  rw [hacc]
  obtain ⟨q1, q2, q3, q4, q5, q6, q7⟩ := post
  refine ⟨q1, q2, q3, ?_, q6, ?_⟩
  · intro y
    rw [q5 y]
    constructor
    · rintro ⟨hy, hcle⟩
      refine ⟨?_, hcle⟩
      rcases List.mem_append.mp hy with h4 | h4
      · exact List.mem_append_left _ ((i4 y).mp h4).1
      · exact List.mem_append_right _ h4
    · rintro ⟨hy, hcle⟩
      refine ⟨?_, hcle⟩
      rcases List.mem_append.mp hy with h4 | h4
      · exact List.mem_append_left _ ((i4 y).mpr ⟨h4, by omega⟩)
      · exact List.mem_append_right _ h4
  · intro j hj hlt
    rcases q7 j hj hlt with h4 | h4
    · exact List.mem_append_left _ (i6 j hj h4)
    · rcases List.mem_append.mp h4 with h5 | h5
      · exact List.mem_append_left _ ((i4 _).mp h5).1
      · exact List.mem_append_right _ h5

lemma foldl_accept_inv (content : List Nat) (c2 M : Nat) (hc2 : 1 ≤ c2)
    (hF1 : ∀ i, i < M → i * c2 < content.length) :
    ∀ (q p : List (Nat × List Nat)) (st : SinkState),
      (∀ y ∈ p ++ q, y ∈ sinkChunks content c2 M) →
      ((p ++ q).map Prod.fst).Nodup →
      SinkInv content c2 M p st →
      SinkInv content c2 M (p ++ q) (q.foldl acceptChunk st) := by
  intro q
  induction q with
  | nil =>
    intro p st hmem hkeys hinv
    simpa using hinv
  | cons x q ih =>
    intro p st hmem hkeys hinv
    have hassoc : p ++ x :: q = (p ++ [x]) ++ q := by simp
    rw [hassoc] at hmem hkeys ⊢
    have hsub1 : ((p ++ [x]).map Prod.fst).Nodup := by
      have h1 : (p ++ [x]).Sublist ((p ++ [x]) ++ q) := List.sublist_append_left _ _
      exact (h1.map Prod.fst).nodup hkeys
    have hmem1 : ∀ y ∈ p ++ [x], y ∈ sinkChunks content c2 M := by
      intro y hy
      exact hmem y (List.mem_append_left _ hy)
    have hinv2 := accept_inv content c2 M hc2 hF1 p x st hmem1 hsub1 hinv
    have h2 := ih (p ++ [x]) (acceptChunk st x) hmem hkeys hinv2
    rw [List.foldl_cons]
    exact h2

/-- C2: for every file content and every arrival order of the completed
chunks (any permutation of the planned results), the reassembly loop of
`DownloadFileParallel` writes exactly the original bytes in original order
to the pipe and finishes with the cursor at the end of the file; moreover
after any prefix of the arrivals the emitted bytes are precisely the first
`currentOffset` bytes of the file — the next chunk is never emitted before
all earlier chunks have been fully emitted. -/

theorem sink_reassembles (content : List Nat) (c : Int) (hc : 1 ≤ c)
    (rs : List (Nat × List Nat)) (hperm : rs.Perm (downloadResults content c)) :
    (runSink rs).out = content
    ∧ (runSink rs).cur = content.length
    ∧ (∀ p q : List (Nat × List Nat), rs = p ++ q →
        (runSink p).out = content.take (runSink p).cur) := by
  obtain ⟨c2, rfl⟩ : ∃ c2 : Nat, c = (c2 : Int) :=
    ⟨c.toNat, (Int.toNat_of_nonneg (by omega)).symm⟩
  have hc2 : 1 ≤ c2 := by exact_mod_cast hc
  simp only [runSink]
  set M := (numChunksOf (content.length : Int) (c2 : Int)).toNat with hM
  have hS : downloadResults content (c2 : Int) = sinkChunks content c2 M := by
    rw [downloadResults_eq content (c2 : Int) hc]
    have ht : ((c2 : Int)).toNat = c2 := by omega
    rw [ht]
  rw [hS] at hperm
  have hF1 : ∀ i, i < M → i * c2 < content.length := by
    intro i hi
    have h8 := index_mul_lt (t := (content.length : Int)) (by positivity) hc hi
    rw [← Nat.cast_mul] at h8
    exact_mod_cast h8
  have hF2 : content.length ≤ M * c2 := by
    have h9 := le_numChunksOf_mul (t := (content.length : Int)) (by positivity) hc
    have h10 : ((M : Nat) : Int) = numChunksOf (content.length : Int) (c2 : Int) := by
      have h11 := numChunksOf_nonneg (t := (content.length : Int)) (by positivity) hc
      rw [hM]
      omega
    rw [← h10, ← Nat.cast_mul] at h9
    exact_mod_cast h9
  have hSkeys : ((sinkChunks content c2 M).map Prod.fst).Nodup :=
    sinkChunks_keys_nodup content c2 M hc2
  have hpart : ∀ p : List (Nat × List Nat), p.Sublist rs →
      (∀ y ∈ p, y ∈ sinkChunks content c2 M) ∧ (p.map Prod.fst).Nodup := by
    intro p hp
    constructor
    · intro y hy
      exact hperm.mem_iff.mp (hp.subset hy)
    · have h11 : (rs.map Prod.fst).Nodup :=
        ((hperm.map Prod.fst).nodup_iff).mpr hSkeys
      exact (hp.map Prod.fst).nodup h11
  have hinit : SinkInv content c2 M [] initSink := by
    refine ⟨by simp [initSink], by simp [initSink],
      ⟨0, by omega, by simp [initSink]⟩, by simp [initSink], rfl, ?_⟩
    intro j hj hlt
    simp [initSink] at hlt
  have hmain := foldl_accept_inv content c2 M hc2 hF1 rs [] initSink
    (by
      intro y hy
      rw [List.nil_append] at hy
      exact (hpart rs (List.Sublist.refl rs)).1 y hy)
    (by
      rw [List.nil_append]
      exact (hpart rs (List.Sublist.refl rs)).2)
    hinit
  rw [List.nil_append] at hmain
  obtain ⟨m1, m2, ⟨k, hkM, hcur⟩, m4, m5, m6⟩ := hmain
  have hcurL : (rs.foldl acceptChunk initSink).cur = content.length := by
    by_contra hne
    have hle : (rs.foldl acceptChunk initSink).cur ≤ content.length := by
      rw [hcur]
      omega
    have hlt : (rs.foldl acceptChunk initSink).cur < content.length := by omega
    have hk2 : k * c2 < content.length := by omega
    have hkM2 : k < M := by
      by_contra hcon
      push_neg at hcon
      have h12 := Nat.mul_le_mul_right c2 hcon
      omega
    have hcur_eq : (rs.foldl acceptChunk initSink).cur = k * c2 := by omega
    have hck_mem : chunkAtN content c2 k ∈ rs :=
      hperm.mem_iff.mpr (sinkChunks_mem.mpr ⟨k, hkM2, rfl⟩)
    have hkey : (chunkAtN content c2 k).1 = k * c2 := rfl
    have hck_buf : chunkAtN content c2 k ∈ (rs.foldl acceptChunk initSink).buf := by
      apply (m4 _).mpr
      refine ⟨hck_mem, ?_⟩
      omega
    have h30 := findChunk_none_iff.mp m5 _ hck_buf
    apply h30
    omega
  refine ⟨?_, hcurL, ?_⟩
  · rw [m2, hcurL, List.take_length]
  · intro p q hpq
    have hpsub : p.Sublist rs := by
      rw [hpq]
      exact List.sublist_append_left _ _
    obtain ⟨hpm, hpk⟩ := hpart p hpsub
    have h40 := foldl_accept_inv content c2 M hc2 hF1 p [] initSink
      (by
        intro y hy
        rw [List.nil_append] at hy
        exact hpm y hy)
      (by
        rw [List.nil_append]
        exact hpk)
      hinit
    rw [List.nil_append] at h40
    exact h40.2.1

/-- Witness for `sink_reassembles`: the four-byte file `[3, 5, 8, 13]`, chunk
size 3, chunks arriving in reverse order, reassembles to the original
bytes. -/

theorem sink_reassembles_witness :
    (runSink [(3, [13]), (0, [3, 5, 8])]).out = [3, 5, 8, 13]
    ∧ [((3 : Nat), [(13 : Nat)]), (0, [3, 5, 8])].Perm
        (downloadResults [3, 5, 8, 13] 3) :=
  ⟨(sink_reassembles [3, 5, 8, 13] 3 (by decide) [(3, [13]), (0, [3, 5, 8])]
      (by decide)).1,
    by decide⟩
